import Mathlib

/-!
Verification of the BibTeX-to-HTML publication list builder
(`make_publications.py`).

A bibliography entry is modelled as an association list from field names to
string values (a Python dict with string keys and values).  String values are
manipulated through their underlying `List Char`; the Python string methods
used by the script (`strip`, `replace`, `split`, `join`, indexing) are given
executable models below.  A Python function that can raise `KeyError`
(a missing-dictionary-key lookup) is modelled as returning `Option`,
with `none` standing for the uncaught exception.
-/

set_option maxRecDepth 4000

/-- Python whitespace characters stripped by `str.strip()` (ASCII part). -/
def pySpace (c : Char) : Bool :=
  c = ' ' || c = '\t' || c = '\n' || c = '\x0d' || c = '\x0b' || c = '\x0c'

/-- Model of Python `str.strip()`: remove leading and trailing whitespace. -/
def pyStrip (s : List Char) : List Char :=
  ((s.dropWhile pySpace).reverse.dropWhile pySpace).reverse

/-- `leadsWith pat s` holds when `pat` is an initial segment of `s`. -/
def leadsWith : List Char → List Char → Bool
  | [], _ => true
  | _ :: _, [] => false
  | p :: ps, c :: cs => p = c && leadsWith ps cs

/-- Fuelled scanner for Python `str.replace`: scan left to right, replace each
non-overlapping occurrence of `pat` by `repl`, never rescanning a replacement.
The fuel is an upper bound on the number of characters scanned; with fuel
`≥ s.length` the `0` case is never reached. -/
def replFuel (pat repl : List Char) : Nat → List Char → List Char
  | _, [] => []
  | 0, s => s
  | n + 1, c :: cs =>
    if pat ≠ [] ∧ leadsWith pat (c :: cs) then
      repl ++ replFuel pat repl n (List.drop (pat.length - 1) cs)
    else
      c :: replFuel pat repl n cs

/-- Model of Python `str.replace(pat, repl)` for a non-empty pattern. -/
def replaceAll (pat repl s : List Char) : List Char :=
  replFuel pat repl s.length s

/-- Fuelled scanner for Python `str.split(sep)` with accumulator for the
current piece (held reversed). -/
def splitFuel (sep : List Char) : Nat → List Char → List Char → List (List Char)
  | _, acc, [] => [acc.reverse]
  | 0, acc, s => [acc.reverse ++ s]
  | n + 1, acc, c :: cs =>
    if sep ≠ [] ∧ leadsWith sep (c :: cs) then
      acc.reverse :: splitFuel sep n [] (List.drop (sep.length - 1) cs)
    else
      splitFuel sep n (c :: acc) cs

/-- Model of Python `str.split(sep)` for a non-empty separator. -/
def splitOnSep (sep s : List Char) : List (List Char) :=
  splitFuel sep s.length [] s

/-- `containsSub pat s` holds when `pat` occurs as a contiguous substring of
`s` (Python's `pat in s`). -/
def containsSub (pat : List Char) : List Char → Bool
  | [] => leadsWith pat []
  | c :: cs => leadsWith pat (c :: cs) || containsSub pat cs

/-- Substring test on `String`s. -/
def containsSubS (pat s : String) : Bool :=
  containsSub pat.data s.data

/-- Model of Python `sep.join(pieces)` on character lists. -/
def interL (sep : List Char) : List (List Char) → List Char
  | [] => []
  | [p] => p
  | p :: ps => p ++ sep ++ interL sep ps

/-- Model of Python `sep.join(pieces)` on strings. -/
def interS (sep : String) : List String → String
  | [] => ""
  | [p] => p
  | p :: ps => p ++ sep ++ interS sep ps

/-- A bibliography entry: a mapping from field names to raw string values.
`bibtexparser` yields a dict, modelled as an association list with distinct
keys. -/
abbrev Entry : Type := List (String × String)

/-- Dictionary lookup `entry[k]` / `k in entry`: `none` models a missing key
(`KeyError` when the code indexes unconditionally). -/
def findVal (e : Entry) (k : String) : Option String :=
  (List.find? (fun p => p.1 == k) e).map Prod.snd

/-- `BIBTYPE_PRIORITY` from the script. -/
def BIBTYPE_PRIORITY : List String :=
  ["phdthesis", "book", "inbook", "article", "inproceedings", "conferences"]

/-- Model of Python `str.isdigit()` for ASCII content: non-empty and all
decimal digits. -/
def pyIsDigit (s : List Char) : Bool :=
  !s.isEmpty && s.all Char.isDigit

/-- Value of Python `int(s)` on an all-digit string `s`. -/
def parseDigits (s : List Char) : Nat :=
  s.foldl (fun n c => 10 * n + (c.toNat - 48)) 0

/-- First index of `t` in a list of strings, `none` when absent
(Python `t in l` / `l.index(t)` combined). -/
def listIndex (t : String) : List String → Option Nat
  | [] => none
  | a :: l => if a = t then some 0 else (listIndex t l).map (· + 1)

/-- `sort_key(bib_entry)` from the script: `(year or infinity, type priority
or infinity)`.  Returns `none` when the `"year"` or `"ENTRYTYPE"` lookup
raises `KeyError`. -/
def sortKey (e : Entry) : Option (WithTop Nat × WithTop Nat) := do
  let y ← findVal e "year"
  let t ← findVal e "ENTRYTYPE"
  let yearVal : WithTop Nat :=
    if pyIsDigit y.data then ((parseDigits y.data : Nat) : WithTop Nat) else ⊤
  let typeVal : WithTop Nat :=
    match listIndex t BIBTYPE_PRIORITY with
    | some i => ((i : Nat) : WithTop Nat)
    | none => ⊤
  pure (yearVal, typeVal)

/-- The fixed table of escaped-sequence replacements applied by
`clean_entry`, in source order. -/
def replaceTable : List (List Char × List Char) :=
  [ ("\\AE".data, "Æ".data)
  , ("\\$\\$".data, " ".data)
  , ("~".data, " ".data)
  , ("\\O".data, "Ø".data)
  , ("\\AA".data, "Å".data)
  , ("\\ae".data, "æ".data)
  , ("\\o".data, "ø".data)
  , ("\\\"o".data, "ö".data)
  , ("\\\"a".data, "ä".data)
  , ("\\aa".data, "å".data)
  , ("\\\x27a".data, "&aacute;".data)
  , ("\\\x27c".data, "&cacute;".data)
  , ("\\\x27o".data, "&oacute;".data)
  , ("\\\x27e".data, "&eacute;".data)
  , ("\\c\x7bc\x7d".data, "&ccedil;".data) ]

/-- Apply the replacement table in order. -/
def applyTable (s : List Char) : List Char :=
  replaceTable.foldl (fun v pr => replaceAll pr.1 pr.2 v) s

/-- Drop the single trailing comma:
`if len(v) > 0 and v[-1] == ",": v = v[:-1]`. -/
def dropTrailingComma (s : List Char) : List Char :=
  if s ≠ [] ∧ s.getLast? = some ',' then s.dropLast else s

/-- The field-independent part of `clean_entry`'s per-value cleaning:
strip, apply the replacement table, remove braces and double quotes,
drop one trailing comma. -/
def cleanCore (s : List Char) : List Char :=
  dropTrailingComma
    (replaceAll ['"'] []
      (replaceAll ['\x7d'] []
        (replaceAll ['\x7b'] []
          (applyTable (pyStrip s)))))

/-- The characters of `"&nbsp;"`. -/
def nbspChars : List Char := "&nbsp;".data

/-- The characters of `" and "`. -/
def andChars : List Char := " and ".data

/-- One author name, after blanks were made non-breakable: split on
`"&nbsp;"`, and when the first word carries a comma, move it last with the
comma removed. -/
def fixOne (a : List Char) : List Char :=
  match splitOnSep nbspChars a with
  | [] => []
  | surname :: rest =>
    if surname.contains ',' then
      interL [' '] rest ++ [' '] ++ replaceAll [','] [] surname
    else
      interL [' '] (surname :: rest)

/-- The author-field rewriting of `clean_entry`: split on `" and "`, strip
each name, make blanks non-breakable, reorder `"Surname, First"` as
`"First Surname"`, and join with `", "`. -/
def fixAuthors (v : List Char) : List Char :=
  let authors := (splitOnSep andChars v).map pyStrip
  let authors := authors.map (replaceAll [' '] nbspChars)
  let authors := authors.map fixOne
  interL ", ".data authors

/-- The pages-field rewriting: `--` then `-` become `&ndash;`. -/
def fixPages (v : List Char) : List Char :=
  replaceAll ['-'] "&ndash;".data (replaceAll "--".data "&ndash;".data v)

/-- The keys receiving the author rewriting. -/
def authorKeys : List String := ["author", "author_first", "author_corresponding"]

/-- Per-field cleaning on characters: the core pipeline followed by the
author or pages rewriting when the key asks for it. -/
def cleanChars (k : String) (s : List Char) : List Char :=
  let v5 := cleanCore s
  let v6 := if k ∈ authorKeys then fixAuthors v5 else v5
  if k = "pages" then fixPages v6 else v6

/-- Per-field cleaning on strings. -/
def cleanField (k v : String) : String :=
  String.mk (cleanChars k v.data)

/-- `clean_entry(entry)`: rewrite every value in place
(`entry[k] = clean(v)` for each item), leaving the key set unchanged. -/
def cleanEntry (e : Entry) : Entry :=
  e.map (fun p => (p.1, cleanField p.1 p.2))

/-- `span(cls, text)` inside `get_bib_entry_as_html`. -/
def spanHtml (cls text : String) : String :=
  "<span class=\"" ++ cls ++ "\">" ++ text ++ "</span>"

/-- `format_title_or_chapter()`: a chapter renders as quoted chapter title
followed by book info; otherwise the title renders italicised and quoted.
`none` models a `KeyError` on `"title"` or `"publisher"`. -/
def formatTitleOrChapter (e : Entry) : Option String :=
  match findVal e "chapter" with
  | some ch => do
      let t ← findVal e "title"
      let p ← findVal e "publisher"
      pure ("<span class=\"title\">\"" ++ ch ++ "\"</span>"
            ++ "in: " ++ t ++ ", " ++ p)
  | none => do
      let t ← findVal e "title"
      pure ("<span class=\"title\"><i>\"" ++ t ++ "\"</i></span>")

/-- `format_publisher()`: first-present-wins across journal, booktitle,
eprint, then entry-type-specific fields. -/
def formatPublisher (e : Entry) : Option String :=
  match findVal e "journal" with
  | some j => some (spanHtml "publisher" j)
  | none =>
    match findVal e "booktitle" with
    | some b => some (spanHtml "publisher" b)
    | none =>
      match findVal e "eprint" with
      | some ep => some (spanHtml "publisher" ep)
      | none => do
        let ty ← findVal e "ENTRYTYPE"
        if ty = "phdthesis" then do
          let sc ← findVal e "school"
          pure ("PhD thesis, " ++ sc)
        else if ty = "techreport" then do
          let n ← findVal e "number"
          pure ("Tech. Report, " ++ n)
        else if ty = "book" then
          findVal e "publisher"
        else
          pure ""

/-- The `parts` list built by `format_volume_pages_notes()`.  The
`"ENTRYTYPE"` lookup happens only when a `"number"` field is present,
mirroring Python's short-circuit `and`. -/
def formatVPParts (e : Entry) : Option (List String) := do
  let p1 : List String :=
    match findVal e "volume" with
    | some v => ["vol. " ++ v]
    | none => []
  let p2 : List String ←
    match findVal e "number" with
    | some n => do
        let ty ← findVal e "ENTRYTYPE"
        pure (if ty ≠ "techreport" then ["no. " ++ n] else [])
    | none => pure []
  let p3 : List String :=
    match findVal e "pages" with
    | some p => ["pp. " ++ p]
    | none => []
  let p4 : List String :=
    match findVal e "month" with
    | some m => [m]
    | none => []
  pure (p1 ++ p2 ++ p3 ++ p4)

/-- `format_volume_pages_notes()`: `", ".join(parts)`. -/
def formatVolumePagesNotes (e : Entry) : Option String :=
  (formatVPParts e).map (interS ", ")

/-- The fallback chain of `get_link()` after the `url` test failed:
www, else constructed DOI URL, else constructed HAL URL, else `None`. -/
def getLinkAfterUrl (e : Entry) : Option String :=
  match findVal e "www" with
  | some w => some w
  | none =>
    match findVal e "doi" with
    | some d => some ("https://dx.doi.org/" ++ d)
    | none =>
      match findVal e "hal_id" with
      | some h => some ("https://hal.archives-ouvertes.fr/" ++ h)
      | none => none

/-- `get_link()`: the `url` field wins only when present and non-empty. -/
def getLink (e : Entry) : Option String :=
  match findVal e "url" with
  | some u => if u = "" then getLinkAfterUrl e else some u
  | none => getLinkAfterUrl e

/-- The author segment of the output: a span plus newline when an
`"author"` field is present, nothing otherwise. -/
def authorPart (e : Entry) : String :=
  match findVal e "author" with
  | some a => spanHtml "author" (a ++ ",") ++ "\n"
  | none => ""

/-- The `<li>` wrapper without a link (`link` is `None` or empty, both
falsy in Python). -/
def plainWrap (core : String) : String :=
  "\n<li>\n" ++ core ++ "\n</li>\n" ++ "<br>\n"

/-- The `<li>` wrapper with the anchor inserted right after `"\n<li>\n"`
and closed right before `"\n</li>\n"`. -/
def anchorWrap (link core : String) : String :=
  "\n<li>\n" ++ "<a href=\"" ++ link ++ "\">" ++ core ++ "</a>"
    ++ "\n</li>\n" ++ "<br>\n"

/-- Wrap the entry body according to the truthiness of `get_link()`'s
result: `None` and `""` yield no anchor. -/
def wrapLink (link : Option String) (core : String) : String :=
  match link with
  | some l => if l = "" then plainWrap core else anchorWrap l core
  | none => plainWrap core

/-- The concatenation of the `out` items between `"\n<li>\n"` and the
closing tags: author segment, title, publisher (appended only when
non-empty), volume/pages summary with its `", "` separator (only when
non-empty), and the year span. -/
def htmlCore (e : Entry) : Option String := do
  let tc ← formatTitleOrChapter e
  let pub ← formatPublisher e
  let vp ← formatVolumePagesNotes e
  let y ← findVal e "year"
  pure (authorPart e ++ (tc ++ ",\n")
        ++ (if pub = "" then "" else pub)
        ++ (if vp = "" then "" else ", " ++ vp)
        ++ (", " ++ spanHtml "year" y ++ ".\n"))

/-- `get_bib_entry_as_html(entry)`: `none` models an uncaught `KeyError`
while rendering. -/
def getBibEntryAsHtml (e : Entry) : Option String :=
  (htmlCore e).map (wrapLink (getLink e))

/-- Conditions on an already-cleaned value under which a second cleaning
pass is inert: no escape-introducing characters (backslash, tilde), no
delimiter characters, no surrounding whitespace, no trailing comma, the
author rewriting already settled for author keys, and no hyphen for the
pages key. -/
def goodCleanVal (k w : String) : Prop :=
  (∀ c ∈ w.data, c ≠ '\\' ∧ c ≠ '~' ∧ c ≠ '\x7b' ∧ c ≠ '\x7d' ∧ c ≠ '"')
  ∧ pyStrip w.data = w.data
  ∧ w.data.getLast? ≠ some ','
  ∧ (k ∈ authorKeys → fixAuthors w.data = w.data)
  ∧ (k = "pages" → ∀ c ∈ w.data, c ≠ '-')

instance (k w : String) : Decidable (goodCleanVal k w) := by
  unfold goodCleanVal
  infer_instance

/-- A plain name word: non-empty, with no whitespace, comma or ampersand,
so that the author rewriting treats it as a single token. -/
def plainWord (w : String) : Prop :=
  w.data ≠ [] ∧ ∀ c ∈ w.data, pySpace c = false ∧ c ≠ ',' ∧ c ≠ '&'

instance (w : String) : Decidable (plainWord w) := by
  unfold plainWord
  infer_instance

/-- Spec reading of the year component of the sort key: the year parsed as
an integer when the year string is all digits, otherwise infinity. -/
def specYearKey (y : String) : WithTop Nat :=
  if y.data ≠ [] ∧ ∀ c ∈ y.data, c.isDigit then
    ((parseDigits y.data : Nat) : WithTop Nat)
  else ⊤

/-- Spec reading of the type component of the sort key: the index of the
entry type in the fixed priority list when present, otherwise infinity. -/
def specTypeKey (t : String) : WithTop Nat :=
  if t ∈ BIBTYPE_PRIORITY then
    ((List.indexOf t BIBTYPE_PRIORITY : Nat) : WithTop Nat)
  else ⊤

/-- Spec reading of the delimiter strip: remove every brace and
double-quote character from the value. -/
def stripDelims (s : List Char) : List Char :=
  s.filter (fun c => !(c == '\x7b' || c == '\x7d' || c == '"'))

/-- Spec reading of the trailing-comma rule: drop exactly one comma when
the value ends with one. -/
def dropOneComma (s : List Char) : List Char :=
  if s.getLast? = some ',' then s.dropLast else s

/-- Spec reading of the field-independent cleaning pipeline: trim
whitespace, apply the replacement table, strip delimiters, drop a single
trailing comma. -/
def genericSpec (s : List Char) : List Char :=
  dropOneComma (stripDelims (applyTable (pyStrip s)))

/-- The field-specific rewriting applied after the generic pipeline:
author reordering for author keys, dash normalisation for pages. -/
def cleanPost (k : String) (s : List Char) : List Char :=
  if k ∈ authorKeys then fixAuthors s
  else if k = "pages" then fixPages s
  else s

/-- Comparison renderer for the missing-volume/pages claim: the same
builder with the volume/pages summary clause left out entirely — no
`", "` separator and no empty placeholder. -/
def specHtmlWithoutVPClause (e : Entry) : Option String := do
  let tc ← formatTitleOrChapter e
  let pub ← formatPublisher e
  let y ← findVal e "year"
  pure (wrapLink (getLink e)
    (authorPart e ++ (tc ++ ",\n")
      ++ (if pub = "" then "" else pub)
      ++ (", " ++ spanHtml "year" y ++ ".\n")))

theorem leadsWith_sub {pat s : List Char} (h : leadsWith pat s = true) :
    ∀ x ∈ pat, x ∈ s := by
  induction pat generalizing s with
  | nil => simp
  | cons p ps ih =>
    cases s with
    | nil => simp [leadsWith] at h
    | cons c cs =>
      simp only [leadsWith, Bool.and_eq_true, decide_eq_true_eq] at h
      intro x hx
      rcases List.mem_cons.mp hx with rfl | hx
      · exact h.1 ▸ List.mem_cons_self _ _
      · exact List.mem_cons_of_mem _ (ih h.2 x hx)

theorem leadsWith_refl (p : List Char) : leadsWith p p = true := by
  induction p with
  | nil => rfl
  | cons a t ih => simp [leadsWith, ih]

theorem leadsWith_extend {p s : List Char} (t : List Char)
    (h : leadsWith p s = true) : leadsWith p (s ++ t) = true := by
  induction p generalizing s with
  | nil => rfl
  | cons a as ih =>
    cases s with
    | nil => simp [leadsWith] at h
    | cons c cs =>
      simp only [leadsWith, Bool.and_eq_true, decide_eq_true_eq] at h
      simp only [List.cons_append, leadsWith, Bool.and_eq_true, decide_eq_true_eq]
      exact ⟨h.1, ih h.2⟩

theorem leadsWith_append (p t : List Char) : leadsWith p (p ++ t) = true :=
  leadsWith_extend t (leadsWith_refl p)

theorem replFuel_congr (pat repl : List Char) :
    ∀ (n : Nat) (s : List Char) (m : Nat), s.length ≤ n → s.length ≤ m →
      replFuel pat repl n s = replFuel pat repl m s := by
  intro n
  induction n with
  | zero =>
    intro s m hn _
    have hs : s = [] := List.length_eq_zero.mp (Nat.le_zero.mp hn)
    subst hs
    cases m <;> rfl
  | succ n ih =>
    intro s m hn hm
    cases s with
    | nil => cases m <;> rfl
    | cons a as =>
      cases m with
      | zero => simp at hm
      | succ m =>
        simp only [List.length_cons, Nat.succ_le_succ_iff] at hn hm
        by_cases h : pat ≠ [] ∧ leadsWith pat (a :: as) = true
        · simp only [replFuel, if_pos h]
          congr 1
          exact ih _ _ (le_trans (by simp only [List.length_drop]; omega) hn)
            (le_trans (by simp only [List.length_drop]; omega) hm)
        · simp only [replFuel, if_neg h]
          congr 1
          exact ih _ _ hn hm

theorem replFuel_no_occur {pat repl : List Char} {c : Char} (hc : c ∈ pat) :
    ∀ (n : Nat) (s : List Char), (∀ x ∈ s, x ≠ c) → replFuel pat repl n s = s := by
  intro n
  induction n with
  | zero => intro s _; cases s <;> rfl
  | succ n ih =>
    intro s hs
    cases s with
    | nil => rfl
    | cons a as =>
      have hno : ¬(pat ≠ [] ∧ leadsWith pat (a :: as) = true) := by
        rintro ⟨-, hl⟩
        exact hs c (leadsWith_sub hl c hc) rfl
      simp only [replFuel, if_neg hno]
      rw [ih as (fun x hx => hs x (List.mem_cons_of_mem _ hx))]

theorem replaceAll_no_occur {pat repl s : List Char} {c : Char} (hc : c ∈ pat)
    (hs : ∀ x ∈ s, x ≠ c) : replaceAll pat repl s = s :=
  replFuel_no_occur hc s.length s hs

theorem replFuel_single (c : Char) (r : List Char) :
    ∀ (n : Nat) (s : List Char), s.length ≤ n →
      replFuel [c] r n s = s.flatMap (fun a => if a = c then r else [a]) := by
  intro n
  induction n with
  | zero =>
    intro s hn
    have hs : s = [] := List.length_eq_zero.mp (Nat.le_zero.mp hn)
    subst hs; rfl
  | succ n ih =>
    intro s hn
    cases s with
    | nil => rfl
    | cons a as =>
      simp only [List.length_cons, Nat.succ_le_succ_iff] at hn
      by_cases hac : a = c
      · have hcond : ([c] ≠ ([] : List Char)) ∧ leadsWith [c] (a :: as) = true := by
          subst hac
          exact ⟨by simp, by simp [leadsWith]⟩
        simp only [replFuel, if_pos hcond, List.length_cons]
        subst hac
        simp only [List.flatMap_cons, if_pos rfl]
        congr 1
        simpa using ih as hn
      · have hcond : ¬(([c] ≠ ([] : List Char)) ∧ leadsWith [c] (a :: as) = true) := by
          rintro ⟨-, hl⟩
          simp only [leadsWith, Bool.and_eq_true, decide_eq_true_eq] at hl
          exact hac hl.1.symm
        simp only [replFuel, if_neg hcond]
        rw [ih as hn]
        simp [List.flatMap_cons, hac]

theorem replaceAll_single (c : Char) (r s : List Char) :
    replaceAll [c] r s = s.flatMap (fun a => if a = c then r else [a]) :=
  replFuel_single c r s.length s (le_refl _)

theorem replaceAll_erase (c : Char) (s : List Char) :
    replaceAll [c] [] s = s.filter (fun a => !(a == c)) := by
  rw [replaceAll_single]
  induction s with
  | nil => rfl
  | cons a as ih =>
    by_cases hac : a = c
    · simp [List.flatMap_cons, List.filter_cons, hac, ih]
    · simp [List.flatMap_cons, List.filter_cons, hac, ih]

theorem flatMap_keep {f : Char → List Char} {s : List Char}
    (h : ∀ x ∈ s, f x = [x]) : s.flatMap f = s := by
  induction s with
  | nil => rfl
  | cons a as ih =>
    simp only [List.flatMap_cons, h a (List.mem_cons_self _ _),
      ih (fun x hx => h x (List.mem_cons_of_mem _ hx))]
    rfl

theorem splitFuel_congr (sep : List Char) :
    ∀ (n : Nat) (acc s : List Char) (m : Nat), s.length ≤ n → s.length ≤ m →
      splitFuel sep n acc s = splitFuel sep m acc s := by
  intro n
  induction n with
  | zero =>
    intro acc s m hn _
    have hs : s = [] := List.length_eq_zero.mp (Nat.le_zero.mp hn)
    subst hs
    cases m <;> rfl
  | succ n ih =>
    intro acc s m hn hm
    cases s with
    | nil => cases m <;> rfl
    | cons a as =>
      cases m with
      | zero => simp at hm
      | succ m =>
        simp only [List.length_cons, Nat.succ_le_succ_iff] at hn hm
        by_cases h : sep ≠ [] ∧ leadsWith sep (a :: as) = true
        · simp only [splitFuel, if_pos h]
          congr 1
          exact ih _ _ _ (le_trans (by simp only [List.length_drop]; omega) hn)
            (le_trans (by simp only [List.length_drop]; omega) hm)
        · simp only [splitFuel, if_neg h]
          exact ih _ _ _ hn hm

theorem splitFuel_ne_nil (sep : List Char) :
    ∀ (n : Nat) (acc s : List Char), splitFuel sep n acc s ≠ [] := by
  intro n
  induction n with
  | zero => intro acc s; cases s <;> simp [splitFuel]
  | succ n ih =>
    intro acc s
    cases s with
    | nil => simp [splitFuel]
    | cons a as =>
      by_cases h : sep ≠ [] ∧ leadsWith sep (a :: as) = true
      · simp [splitFuel, if_pos h]
      · simp only [splitFuel, if_neg h]
        exact ih _ _

theorem splitFuel_skip {sep : List Char} {c : Char} (hhead : sep.head? = some c) :
    ∀ (p : List Char), (∀ x ∈ p, x ≠ c) → ∀ (n : Nat) (acc t : List Char),
      (p ++ t).length ≤ n →
      splitFuel sep n acc (p ++ t) = splitFuel sep (n - p.length) (p.reverse ++ acc) t := by
  intro p
  induction p with
  | nil => intro _ n acc t _; simp
  | cons a ps ih =>
    intro hp n acc t hn
    cases n with
    | zero => simp at hn
    | succ n =>
      have hac : a ≠ c := hp a (List.mem_cons_self _ _)
      have hno : ¬(sep ≠ [] ∧ leadsWith sep (a :: (ps ++ t)) = true) := by
        rintro ⟨-, hl⟩
        cases sep with
        | nil => simp at hhead
        | cons s0 sr =>
          simp only [List.head?] at hhead
          simp only [leadsWith, Bool.and_eq_true, decide_eq_true_eq] at hl
          apply hac
          rw [← hl.1]
          exact Option.some.inj hhead
      simp only [List.cons_append, splitFuel, List.append_eq]
      rw [if_neg hno]
      rw [ih (fun x hx => hp x (List.mem_cons_of_mem _ hx)) n (a :: acc) t
        (by simpa [Nat.succ_le_succ_iff] using hn)]
      congr 1
      · simp [List.length_cons]
      · simp

theorem splitFuel_hit {sep : List Char} (hne : sep ≠ []) :
    ∀ (n : Nat) (acc t : List Char), (sep ++ t).length ≤ n →
      splitFuel sep n acc (sep ++ t) = acc.reverse :: splitFuel sep t.length [] t := by
  intro n acc t hn
  cases sep with
  | nil => exact absurd rfl hne
  | cons s0 sr =>
    cases n with
    | zero => simp at hn
    | succ n =>
      have hlw : leadsWith (s0 :: sr) (s0 :: (sr ++ t)) = true := by
        have := leadsWith_append (s0 :: sr) t
        simpa using this
      have hcond : ((s0 :: sr) ≠ ([] : List Char))
          ∧ leadsWith (s0 :: sr) (s0 :: (sr ++ t)) = true := ⟨by simp, hlw⟩
      simp only [List.cons_append, splitFuel, List.append_eq]
      rw [if_pos hcond]
      congr 1
      have hdrop : List.drop ((s0 :: sr).length - 1) (sr ++ t) = t := by
        simp only [List.length_cons, Nat.add_sub_cancel]
        exact List.drop_left' rfl
      rw [hdrop]
      apply splitFuel_congr
      · simp only [List.cons_append, List.length_cons, List.length_append] at hn
        omega
      · exact le_refl _

theorem splitOnSep_inter_aux {sep : List Char} {c : Char} (hhead : sep.head? = some c) :
    ∀ (ps : List (List Char)), ps ≠ [] → (∀ p ∈ ps, ∀ x ∈ p, x ≠ c) →
      ∀ (n : Nat), (interL sep ps).length ≤ n →
        splitFuel sep n [] (interL sep ps) = ps := by
  intro ps
  induction ps with
  | nil => intro h; exact absurd rfl h
  | cons p ps ih =>
    intro _ hps n hn
    cases ps with
    | nil =>
      have hp : ∀ x ∈ p, x ≠ c := hps p (List.mem_cons_self _ _)
      have := splitFuel_skip hhead p hp n [] [] (by simpa using hn)
      simp only [List.append_nil] at this
      rw [show interL sep [p] = p from rfl, this]
      cases h : n - p.length <;> simp [splitFuel]
    | cons q qs =>
      have hp : ∀ x ∈ p, x ≠ c := hps p (List.mem_cons_self _ _)
      have hinter : interL sep (p :: q :: qs) = p ++ (sep ++ interL sep (q :: qs)) := by
        simp [interL]
      have hne : sep ≠ [] := by
        cases sep
        · simp at hhead
        · simp
      rw [hinter]
      rw [splitFuel_skip hhead p hp n [] (sep ++ interL sep (q :: qs))
        (by rw [← hinter]; exact hn)]
      rw [splitFuel_hit hne _ _ _ (by
        rw [hinter] at hn
        simp only [List.length_append] at hn ⊢
        omega)]
      simp only [List.append_nil, List.reverse_reverse]
      congr 1
      exact ih (by simp) (fun r hr => hps r (List.mem_cons_of_mem _ hr)) _ (le_refl _)

theorem splitOnSep_inter {sep : List Char} {c : Char} (hhead : sep.head? = some c)
    (ps : List (List Char)) (hne : ps ≠ []) (hps : ∀ p ∈ ps, ∀ x ∈ p, x ≠ c) :
    splitOnSep sep (interL sep ps) = ps :=
  splitOnSep_inter_aux hhead ps hne hps _ (le_refl _)

theorem dropWhile_head {p : Char → Bool} {s : List Char}
    (h : ∀ a, s.head? = some a → p a = false) : s.dropWhile p = s := by
  cases s with
  | nil => rfl
  | cons a as =>
    rw [List.dropWhile_cons, h a rfl]
    simp

theorem pyStrip_id {s : List Char}
    (h1 : ∀ a, s.head? = some a → pySpace a = false)
    (h2 : ∀ a, s.getLast? = some a → pySpace a = false) : pyStrip s = s := by
  unfold pyStrip
  rw [dropWhile_head h1, dropWhile_head (by
    intro a ha
    rw [List.head?_reverse] at ha
    exact h2 a ha)]
  exact List.reverse_reverse s

theorem containsSub_self (p : List Char) : containsSub p p = true := by
  cases p with
  | nil => rfl
  | cons a t =>
    simp only [containsSub, Bool.or_eq_true]
    exact Or.inl (leadsWith_refl _)

theorem containsSub_extend {p s : List Char} (t : List Char)
    (h : containsSub p s = true) : containsSub p (s ++ t) = true := by
  induction s with
  | nil =>
    simp only [containsSub] at h
    cases p with
    | nil => cases t <;> simp [containsSub, leadsWith]
    | cons a q => simp [leadsWith] at h
  | cons a s' ih =>
    simp only [containsSub, Bool.or_eq_true] at h
    simp only [List.cons_append, containsSub, Bool.or_eq_true]
    rcases h with h | h
    · exact Or.inl (leadsWith_extend t h)
    · exact Or.inr (ih h)

theorem containsSub_shift {p t : List Char} (s : List Char)
    (h : containsSub p t = true) : containsSub p (s ++ t) = true := by
  induction s with
  | nil => exact h
  | cons a s' ih =>
    simp only [List.cons_append, containsSub, Bool.or_eq_true]
    exact Or.inr ih

theorem containsSub_mid (x p y : List Char) :
    containsSub p (x ++ (p ++ y)) = true :=
  containsSub_shift x (containsSub_extend y (containsSub_self p))

theorem string_append_nil (s : String) : s ++ "" = s := by
  cases s with
  | mk d =>
    show String.mk (d ++ "".data) = String.mk d
    simp [String.data]

theorem string_data_nonempty {p : String} {c : Char} {r : List Char}
    (h : p.data = c :: r) (q : String) : p ++ q ≠ "" := by
  intro he
  have hd := congrArg String.data he
  rw [String.data_append, h] at hd
  simp at hd

theorem head_ne_of_data {a b : String} {x y : Char}
    (hx : a.data.head? = some x) (hy : b.data.head? = some y) (hxy : x ≠ y) :
    a ≠ b := by
  intro h
  subst h
  rw [hx] at hy
  exact hxy (Option.some.inj hy)

theorem findVal_cleanEntry (e : Entry) (k : String) :
    findVal (cleanEntry e) k = (findVal e k).map (cleanField k) := by
  induction e with
  | nil => rfl
  | cons p t ih =>
    obtain ⟨a, b⟩ := p
    show findVal ((a, cleanField a b) :: cleanEntry t) k
      = (findVal ((a, b) :: t) k).map (cleanField k)
    unfold findVal
    by_cases hak : (a == k) = true
    · have hak' : a = k := by simpa using hak
      subst hak'
      simp [List.find?]
    · simp only [List.find?, hak]
      exact ih

theorem listIndex_eq (t : String) :
    ∀ l : List String, listIndex t l
      = if t ∈ l then some (List.indexOf t l) else none := by
  intro l
  induction l with
  | nil => simp [listIndex]
  | cons a l ih =>
    by_cases hat : a = t
    · subst hat
      simp [listIndex, List.indexOf_cons_self]
    · have hta : t ≠ a := fun h => hat h.symm
      simp only [listIndex, if_neg hat, ih, List.mem_cons]
      by_cases htl : t ∈ l
      · rw [if_pos htl, if_pos (Or.inr htl), List.indexOf_cons_ne _ hat]
        rfl
      · rw [if_neg htl, if_neg (by
          rintro (h | h)
          · exact hta h
          · exact htl h)]
        rfl

theorem map_id_of_mem {α : Type} {l : List α} {f : α → α}
    (h : ∀ a ∈ l, f a = a) : l.map f = l := by
  rw [List.map_congr_left h]
  exact List.map_id l

theorem applyTable_id {w : List Char}
    (hbs : ∀ x ∈ w, x ≠ '\\') (htl : ∀ x ∈ w, x ≠ '~') : applyTable w = w := by
  simp only [applyTable, replaceTable, List.foldl_cons, List.foldl_nil]
  rw [replaceAll_no_occur (show ('\\' : Char) ∈ "\\AE".data by decide) hbs]
  rw [replaceAll_no_occur (show ('\\' : Char) ∈ "\\$\\$".data by decide) hbs]
  rw [replaceAll_no_occur (show ('~' : Char) ∈ "~".data by decide) htl]
  rw [replaceAll_no_occur (show ('\\' : Char) ∈ "\\O".data by decide) hbs]
  rw [replaceAll_no_occur (show ('\\' : Char) ∈ "\\AA".data by decide) hbs]
  rw [replaceAll_no_occur (show ('\\' : Char) ∈ "\\ae".data by decide) hbs]
  rw [replaceAll_no_occur (show ('\\' : Char) ∈ "\\o".data by decide) hbs]
  rw [replaceAll_no_occur (show ('\\' : Char) ∈ "\\\"o".data by decide) hbs]
  rw [replaceAll_no_occur (show ('\\' : Char) ∈ "\\\"a".data by decide) hbs]
  rw [replaceAll_no_occur (show ('\\' : Char) ∈ "\\aa".data by decide) hbs]
  rw [replaceAll_no_occur (show ('\\' : Char) ∈ "\\\x27a".data by decide) hbs]
  rw [replaceAll_no_occur (show ('\\' : Char) ∈ "\\\x27c".data by decide) hbs]
  rw [replaceAll_no_occur (show ('\\' : Char) ∈ "\\\x27o".data by decide) hbs]
  rw [replaceAll_no_occur (show ('\\' : Char) ∈ "\\\x27e".data by decide) hbs]
  rw [replaceAll_no_occur (show ('\\' : Char) ∈ "\\c\x7bc\x7d".data by decide) hbs]

theorem cleanCore_id {w : List Char}
    (hchars : ∀ c ∈ w, c ≠ '\\' ∧ c ≠ '~' ∧ c ≠ '\x7b' ∧ c ≠ '\x7d' ∧ c ≠ '"')
    (hstrip : pyStrip w = w)
    (hlast : w.getLast? ≠ some ',') : cleanCore w = w := by
  unfold cleanCore
  rw [hstrip]
  rw [applyTable_id (fun x hx => (hchars x hx).1) (fun x hx => (hchars x hx).2.1)]
  rw [replaceAll_no_occur (show ('\x7b' : Char) ∈ ['\x7b'] by decide)
    (fun x hx => (hchars x hx).2.2.1)]
  rw [replaceAll_no_occur (show ('\x7d' : Char) ∈ ['\x7d'] by decide)
    (fun x hx => (hchars x hx).2.2.2.1)]
  rw [replaceAll_no_occur (show ('"' : Char) ∈ ['"'] by decide)
    (fun x hx => (hchars x hx).2.2.2.2)]
  unfold dropTrailingComma
  rw [if_neg]
  rintro ⟨-, h⟩
  exact hlast h

theorem cleanChars_eq (k : String) (s : List Char) :
    cleanChars k s
      = (if k = "pages" then
          fixPages (if k ∈ authorKeys then fixAuthors (cleanCore s) else cleanCore s)
        else
          (if k ∈ authorKeys then fixAuthors (cleanCore s) else cleanCore s)) := rfl

theorem string_mk_data (w : String) : String.mk w.data = w := by
  cases w
  rfl

theorem cleanField_id {k w : String} (h : goodCleanVal k w) :
    cleanField k w = w := by
  obtain ⟨hchars, hstrip, hlast, hauth, hpages⟩ := h
  show String.mk (cleanChars k w.data) = w
  rw [cleanChars_eq, cleanCore_id hchars hstrip hlast]
  by_cases hk : k ∈ authorKeys
  · have hkp : ¬(k = "pages") := by
      rintro rfl
      exact absurd hk (by decide)
    rw [if_pos hk, if_neg hkp, hauth hk]
  · rw [if_neg hk]
    by_cases hkp : k = "pages"
    · rw [if_pos hkp]
      unfold fixPages
      rw [replaceAll_no_occur (show ('-' : Char) ∈ "--".data by decide) (hpages hkp)]
      rw [replaceAll_no_occur (show ('-' : Char) ∈ ['-'] by decide) (hpages hkp)]
    · rw [if_neg hkp]

/-- C1 (counterexample): cleaning is not idempotent — a value ending in two
commas loses one comma on each pass, so the second pass changes the entry
again. -/
theorem clean_entry_not_idempotent_cex :
    cleanEntry (cleanEntry [("title", "x,,")]) ≠ cleanEntry [("title", "x,,")] := by
  decide

/-- C1 (amended): cleaning is idempotent on every entry whose once-cleaned
values contain no backslash, tilde, brace or double quote, carry no
surrounding whitespace and no trailing comma, are fixed points of the author
rewriting for author keys, and contain no hyphen for the pages key.  (The
unrestricted claim fails: see the counterexample with a value ending in two
commas.)  In particular no replacement output re-matches a replacement
pattern, since every pattern contains a backslash or tilde and no output
does. -/
theorem clean_entry_idempotent_amended (e : Entry)
    (h : ∀ p ∈ cleanEntry e, goodCleanVal p.1 p.2) :
    cleanEntry (cleanEntry e) = cleanEntry e := by
  show (cleanEntry e).map (fun p => (p.1, cleanField p.1 p.2)) = cleanEntry e
  apply map_id_of_mem
  intro p hp
  obtain ⟨a, b⟩ := p
  have := cleanField_id (h (a, b) hp)
  simp [this]

/-- C1 (witness): a concrete already-clean entry satisfying the side
conditions, on which cleaning twice equals cleaning once. -/
theorem clean_entry_idempotent_amended_witness :
    (∀ p ∈ cleanEntry [("author", "John Smith"), ("title", "Hello")],
      goodCleanVal p.1 p.2)
    ∧ cleanEntry (cleanEntry [("author", "John Smith"), ("title", "Hello")])
      = cleanEntry [("author", "John Smith"), ("title", "Hello")] :=
  ⟨by decide, clean_entry_idempotent_amended _ (by decide)⟩

/-- C2: for an entry carrying `"year"` and `"ENTRYTYPE"` fields, `sort_key`
returns the pair (year parsed as an integer when the year string is all
digits, otherwise infinity; index of the entry type in the fixed priority
list when present, otherwise infinity), so unknown types and non-numeric
years sort last. -/
theorem sort_key_spec (e : Entry) (y t : String)
    (hy : findVal e "year" = some y) (ht : findVal e "ENTRYTYPE" = some t) :
    sortKey e = some (specYearKey y, specTypeKey t)
    ∧ (¬ pyIsDigit y.data = true → specYearKey y = ⊤)
    ∧ (t ∉ BIBTYPE_PRIORITY → specTypeKey t = ⊤) := by
  have hiff : (pyIsDigit y.data = true) ↔ (y.data ≠ [] ∧ ∀ c ∈ y.data, c.isDigit = true) := by
    simp [pyIsDigit, List.all_eq_true, List.isEmpty_iff]
  have hA : (if pyIsDigit y.data then ((parseDigits y.data : Nat) : WithTop Nat) else ⊤)
      = specYearKey y := by
    unfold specYearKey
    exact if_congr hiff rfl rfl
  have hB : (match listIndex t BIBTYPE_PRIORITY with
      | some i => ((i : Nat) : WithTop Nat)
      | none => ⊤) = specTypeKey t := by
    rw [listIndex_eq]
    by_cases h : t ∈ BIBTYPE_PRIORITY
    · rw [if_pos h]
      unfold specTypeKey
      rw [if_pos h]
    · rw [if_neg h]
      unfold specTypeKey
      rw [if_neg h]
  refine ⟨?_, ?_, ?_⟩
  · unfold sortKey
    rw [hy, ht]
    show some
      ((if pyIsDigit y.data then ((parseDigits y.data : Nat) : WithTop Nat) else ⊤),
        (match listIndex t BIBTYPE_PRIORITY with
        | some i => ((i : Nat) : WithTop Nat)
        | none => ⊤))
      = some (specYearKey y, specTypeKey t)
    rw [hA, hB]
  · intro h
    unfold specYearKey
    rw [if_neg (fun hc => h (hiff.mpr hc))]
  · intro h
    unfold specTypeKey
    rw [if_neg h]

/-- C2 (witness): the sort key of a concrete 2021 article. -/
theorem sort_key_spec_witness :
    sortKey [("year", "2021"), ("ENTRYTYPE", "article")]
      = some (specYearKey "2021", specTypeKey "article") :=
  (sort_key_spec [("year", "2021"), ("ENTRYTYPE", "article")] "2021" "article"
    (by decide) (by decide)).1

/-- C6: on an entry with no `"year"` field, both `sort_key` and
`get_bib_entry_as_html` hit a missing-key lookup and produce no result
(`none` models the uncaught `KeyError`), whatever other fields are
present. -/
theorem missing_year_errors (e : Entry) (hy : findVal e "year" = none) :
    sortKey e = none ∧ getBibEntryAsHtml e = none := by
  constructor
  · unfold sortKey
    rw [hy]
    rfl
  · unfold getBibEntryAsHtml
    have hcore : htmlCore e = none := by
      unfold htmlCore
      rcases htc : formatTitleOrChapter e with _ | tc
      · rfl
      · rcases hp : formatPublisher e with _ | pub
        · rfl
        · rcases hv : formatVolumePagesNotes e with _ | vp
          · rfl
          · rw [hy]
            rfl
    rw [hcore]
    rfl

/-- C6 (witness): a concrete yearless entry on which both functions fail. -/
theorem missing_year_errors_witness :
    sortKey [("title", "T"), ("ENTRYTYPE", "article")] = none
    ∧ getBibEntryAsHtml [("title", "T"), ("ENTRYTYPE", "article")] = none :=
  missing_year_errors [("title", "T"), ("ENTRYTYPE", "article")] (by decide)

/-- C7: an entry with no volume, number, pages or month fields renders with
the volume/pages summary clause entirely absent: the joined summary is the
empty string and the output equals that of a builder with no such clause at
all — no leading `", "` separator, no empty placeholder. -/
theorem missing_volume_pages_omitted (e : Entry)
    (h1 : findVal e "volume" = none) (h2 : findVal e "number" = none)
    (h3 : findVal e "pages" = none) (h4 : findVal e "month" = none) :
    formatVolumePagesNotes e = some ""
    ∧ getBibEntryAsHtml e = specHtmlWithoutVPClause e := by
  have hvp : formatVolumePagesNotes e = some "" := by
    unfold formatVolumePagesNotes formatVPParts
    rw [h1, h2, h3, h4]
    rfl
  refine ⟨hvp, ?_⟩
  unfold getBibEntryAsHtml htmlCore specHtmlWithoutVPClause
  rw [hvp]
  rcases htc : formatTitleOrChapter e with _ | tc
  · rfl
  · rcases hp : formatPublisher e with _ | pub
    · rfl
    · rcases hy : findVal e "year" with _ | y
      · rfl
      · show some (wrapLink (getLink e)
            (authorPart e ++ (tc ++ ",\n")
              ++ (if pub = "" then "" else pub)
              ++ (if ("" : String) = "" then "" else ", " ++ "")
              ++ (", " ++ spanHtml "year" y ++ ".\n")))
          = some (wrapLink (getLink e)
            (authorPart e ++ (tc ++ ",\n")
              ++ (if pub = "" then "" else pub)
              ++ (", " ++ spanHtml "year" y ++ ".\n")))
        rw [if_pos rfl, string_append_nil]

/-- C7 (witness): a concrete article with no optional summary fields. -/
theorem missing_volume_pages_omitted_witness :
    formatVolumePagesNotes [("title", "T"), ("year", "2020"), ("ENTRYTYPE", "article")] = some ""
    ∧ getBibEntryAsHtml [("title", "T"), ("year", "2020"), ("ENTRYTYPE", "article")]
      = specHtmlWithoutVPClause [("title", "T"), ("year", "2020"), ("ENTRYTYPE", "article")] :=
  missing_volume_pages_omitted [("title", "T"), ("year", "2020"), ("ENTRYTYPE", "article")]
    (by decide) (by decide) (by decide) (by decide)

/-- C9: cleaning rewrites values in place — the key list is unchanged and
each value is replaced by its cleaned form; in the embedding `sort_key` and
`get_bib_entry_as_html` are pure functions of the entry (the source performs
no assignment outside `clean_entry`), so reads leave entries unchanged. -/
theorem entries_read_only (e : Entry) :
    (cleanEntry e).map Prod.fst = e.map Prod.fst
    ∧ ∀ k, findVal (cleanEntry e) k = (findVal e k).map (cleanField k) := by
  constructor
  · unfold cleanEntry
    rw [List.map_map]
    rfl
  · exact findVal_cleanEntry e

/-- C10: when the `"url"` field is present but empty, `get_link` falls
through to `www`, then the constructed DOI URL, then the constructed HAL
URL; the emptiness test guards only `url`, so an empty `www` (or `doi`,
`hal_id`) value is still selected. -/
theorem empty_url_fallthrough (e : Entry) (hu : findVal e "url" = some "") :
    (∀ w, findVal e "www" = some w → getLink e = some w)
    ∧ (findVal e "www" = none → ∀ d, findVal e "doi" = some d →
        getLink e = some ("https://dx.doi.org/" ++ d))
    ∧ (findVal e "www" = none → findVal e "doi" = none →
        ∀ h, findVal e "hal_id" = some h →
          getLink e = some ("https://hal.archives-ouvertes.fr/" ++ h))
    ∧ (findVal e "www" = none → findVal e "doi" = none →
        findVal e "hal_id" = none → getLink e = none) := by
  have hbase : getLink e = getLinkAfterUrl e := by
    unfold getLink
    rw [hu]
    rfl
  refine ⟨?_, ?_, ?_, ?_⟩
  · intro w hw
    rw [hbase]
    unfold getLinkAfterUrl
    rw [hw]
  · intro hw d hd
    rw [hbase]
    unfold getLinkAfterUrl
    rw [hw, hd]
  · intro hw hd h hh
    rw [hbase]
    unfold getLinkAfterUrl
    rw [hw, hd, hh]
  · intro hw hd hh
    rw [hbase]
    unfold getLinkAfterUrl
    rw [hw, hd, hh]

/-- C10 (witness): an empty `url` with an empty `www` still selects the
`www` value. -/
theorem empty_url_fallthrough_witness :
    getLink [("url", ""), ("www", "")] = some "" :=
  (empty_url_fallthrough [("url", ""), ("www", "")] (by decide)).1 "" (by decide)

/-- C4 (counterexample): an entry with both a `url` field (empty) and a
`doi` field does not render with the url value as href — the DOI link is
used instead, so the unconditional url-precedence claim fails. -/
theorem link_url_precedence_cex :
    getLink [("url", ""), ("doi", "10.1234/x"), ("title", "T"),
        ("year", "2000"), ("ENTRYTYPE", "article")]
      = some ("https://dx.doi.org/10.1234/x")
    ∧ (getBibEntryAsHtml [("url", ""), ("doi", "10.1234/x"), ("title", "T"),
        ("year", "2000"), ("ENTRYTYPE", "article")]).map
        (containsSubS "<a href=\"https://dx.doi.org/10.1234/x\">") = some true
    ∧ (getBibEntryAsHtml [("url", ""), ("doi", "10.1234/x"), ("title", "T"),
        ("year", "2000"), ("ENTRYTYPE", "article")]).map
        (containsSubS "href=\"\"") = some false := by
  decide

/-- C4 (amended): an entry whose `url` field is present and non-empty
renders inside an anchor whose href is the url value; with no url the link
falls through to `www`, then the constructed DOI URL, then the constructed
HAL URL; with none of the four fields no anchor is emitted. -/
theorem link_precedence_amended (e : Entry) :
    (∀ u, findVal e "url" = some u → u ≠ "" →
      getLink e = some u
      ∧ ∀ c, htmlCore e = some c → getBibEntryAsHtml e = some (anchorWrap u c))
    ∧ (findVal e "url" = none → ∀ w, findVal e "www" = some w →
        getLink e = some w)
    ∧ (findVal e "url" = none → findVal e "www" = none →
        ∀ d, findVal e "doi" = some d →
          getLink e = some ("https://dx.doi.org/" ++ d))
    ∧ (findVal e "url" = none → findVal e "www" = none → findVal e "doi" = none →
        ∀ h, findVal e "hal_id" = some h →
          getLink e = some ("https://hal.archives-ouvertes.fr/" ++ h))
    ∧ (findVal e "url" = none → findVal e "www" = none → findVal e "doi" = none →
        findVal e "hal_id" = none →
          getLink e = none
          ∧ getBibEntryAsHtml e = (htmlCore e).map plainWrap) := by
  refine ⟨?_, ?_, ?_, ?_, ?_⟩
  · intro u hu hne
    have hl : getLink e = some u := by
      unfold getLink
      rw [hu]
      show (if u = "" then getLinkAfterUrl e else some u) = some u
      rw [if_neg hne]
    refine ⟨hl, ?_⟩
    intro c hc
    unfold getBibEntryAsHtml
    rw [hc, hl]
    show some (if u = "" then plainWrap c else anchorWrap u c) = some (anchorWrap u c)
    rw [if_neg hne]
  · intro hu w hw
    unfold getLink
    rw [hu]
    unfold getLinkAfterUrl
    rw [hw]
  · intro hu hw d hd
    unfold getLink
    rw [hu]
    unfold getLinkAfterUrl
    rw [hw, hd]
  · intro hu hw hd h hh
    unfold getLink
    rw [hu]
    unfold getLinkAfterUrl
    rw [hw, hd, hh]
  · intro hu hw hd hh
    have hl : getLink e = none := by
      unfold getLink
      rw [hu]
      unfold getLinkAfterUrl
      rw [hw, hd, hh]
    refine ⟨hl, ?_⟩
    unfold getBibEntryAsHtml
    rw [hl]
    rfl

/-- C4 (witness): a non-empty url wins over a doi. -/
theorem link_precedence_amended_witness :
    getLink [("url", "http://x"), ("doi", "d")] = some ("http://x") :=
  ((link_precedence_amended [("url", "http://x"), ("doi", "d")]).1 "http://x"
    (by decide) (by decide)).1

theorem string_eq_of_data {a b : String} (h : a.data = b.data) : a = b := by
  cases a
  cases b
  exact congrArg String.mk h

theorem containsSubS_of_eq {pat s x y : String} (h : s = x ++ (pat ++ y)) :
    containsSubS pat s = true := by
  subst h
  unfold containsSubS
  rw [String.data_append, String.data_append]
  exact containsSub_mid x.data pat.data y.data

/-- C5 (counterexample): a `techreport` entry with a `number` field but also
a `journal` field renders the journal, not `"Tech. Report, <number>"` — the
venue precedence puts journal, booktitle and eprint first. -/
theorem techreport_venue_cex :
    (getBibEntryAsHtml [("ENTRYTYPE", "techreport"), ("number", "42"),
        ("journal", "Nature"), ("title", "T"), ("year", "1999")]).map
      (containsSubS "Tech. Report, 42") = some false := by
  decide

/-- C5 (amended): a `techreport` entry with a `number` field and no
`journal`, `booktitle` or `eprint` field (and whose `month` value, if any,
is not itself the string `"no. <number>"`) gets the venue line
`"Tech. Report, <number>"`, which appears in the rendered HTML, and the
volume/pages summary parts contain no `"no. <number>"` clause. -/
theorem techreport_venue_amended (e : Entry) (n : String)
    (ht : findVal e "ENTRYTYPE" = some "techreport")
    (hn : findVal e "number" = some n)
    (hj : findVal e "journal" = none)
    (hb : findVal e "booktitle" = none)
    (hep : findVal e "eprint" = none)
    (hmonth : ∀ m, findVal e "month" = some m → m ≠ "no. " ++ n) :
    formatPublisher e = some ("Tech. Report, " ++ n)
    ∧ (∀ ps, formatVPParts e = some ps → ("no. " ++ n) ∉ ps)
    ∧ (∀ h, getBibEntryAsHtml e = some h →
        containsSubS ("Tech. Report, " ++ n) h = true) := by
  have hpub : formatPublisher e = some ("Tech. Report, " ++ n) := by
    unfold formatPublisher
    rw [hj, hb, hep, ht, hn]
    rfl
  have hppnil : ¬(("techreport" : String) ≠ "techreport") := by simp
  have hPP : formatVPParts e = some
      ((match findVal e "volume" with
        | some v => ["vol. " ++ v]
        | none => [])
        ++ (if ("techreport" : String) ≠ "techreport" then ["no. " ++ n] else [])
        ++ (match findVal e "pages" with
        | some p => ["pp. " ++ p]
        | none => [])
        ++ (match findVal e "month" with
        | some m => [m]
        | none => [])) := by
    unfold formatVPParts
    rw [hn, ht]
    rfl
  have hvolNe : ∀ x ∈ (match findVal e "volume" with
      | some v => ["vol. " ++ v]
      | none => ([] : List String)), ("no. " ++ n) ≠ x := by
    rcases findVal e "volume" with _ | v
    · intro x hx
      exact absurd hx (List.not_mem_nil x)
    · intro x hx
      rw [List.mem_singleton] at hx
      subst hx
      exact head_ne_of_data (by rw [String.data_append]; rfl)
        (by rw [String.data_append]; rfl) (by decide)
  have hp2Ne : ∀ x ∈ (if ("techreport" : String) ≠ "techreport"
      then ["no. " ++ n] else ([] : List String)), ("no. " ++ n) ≠ x := by
    rw [if_neg hppnil]
    intro x hx
    exact absurd hx (List.not_mem_nil x)
  have hpgNe : ∀ x ∈ (match findVal e "pages" with
      | some p => ["pp. " ++ p]
      | none => ([] : List String)), ("no. " ++ n) ≠ x := by
    rcases findVal e "pages" with _ | p
    · intro x hx
      exact absurd hx (List.not_mem_nil x)
    · intro x hx
      rw [List.mem_singleton] at hx
      subst hx
      exact head_ne_of_data (by rw [String.data_append]; rfl)
        (by rw [String.data_append]; rfl) (by decide)
  have hmNe : ∀ x ∈ (match findVal e "month" with
      | some m => [m]
      | none => ([] : List String)), ("no. " ++ n) ≠ x := by
    rcases hm0 : findVal e "month" with _ | m
    · intro x hx
      exact absurd hx (List.not_mem_nil x)
    · intro x hx
      rw [List.mem_singleton] at hx
      subst hx
      exact Ne.symm (hmonth x hm0)
  refine ⟨hpub, ?_, ?_⟩
  · intro ps hps
    rw [hPP] at hps
    have hps' := Option.some.inj hps
    subst hps'
    intro hmem
    simp only [List.mem_append] at hmem
    rcases hmem with ((h1 | h2) | h3) | h4
    · exact (hvolNe _ h1) rfl
    · exact (hp2Ne _ h2) rfl
    · exact (hpgNe _ h3) rfl
    · exact (hmNe _ h4) rfl
  · intro h hh
    unfold getBibEntryAsHtml at hh
    rcases hcm : htmlCore e with _ | c
    · rw [hcm] at hh
      cases hh
    · rw [hcm] at hh
      have hh' : wrapLink (getLink e) c = h := Option.some.inj hh
      subst hh'
      unfold htmlCore at hcm
      rcases htc : formatTitleOrChapter e with _ | tc
      · rw [htc] at hcm
        cases hcm
      · rw [htc, hpub] at hcm
        rcases hvp : formatVolumePagesNotes e with _ | vp
        · rw [hvp] at hcm
          cases hcm
        · rw [hvp] at hcm
          rcases hy : findVal e "year" with _ | y
          · rw [hy] at hcm
            cases hcm
          · rw [hy] at hcm
            have hcval := Option.some.inj hcm
            have hpne : ("Tech. Report, " ++ n) ≠ "" :=
              string_data_nonempty rfl n
            rw [if_neg hpne] at hcval
            subst hcval
            rcases getLink e with _ | l
            · apply containsSubS_of_eq
                (x := "\n<li>\n" ++ (authorPart e ++ (tc ++ ",\n")))
                (y := (if vp = "" then "" else ", " ++ vp)
                  ++ (", " ++ spanHtml "year" y ++ ".\n")
                  ++ ("\n</li>\n" ++ "<br>\n"))
              apply string_eq_of_data
              simp [wrapLink, plainWrap, String.data_append, List.append_assoc]
            · by_cases hl : l = ""
              · subst hl
                apply containsSubS_of_eq
                  (x := "\n<li>\n" ++ (authorPart e ++ (tc ++ ",\n")))
                  (y := (if vp = "" then "" else ", " ++ vp)
                    ++ (", " ++ spanHtml "year" y ++ ".\n")
                    ++ ("\n</li>\n" ++ "<br>\n"))
                apply string_eq_of_data
                simp [wrapLink, plainWrap, String.data_append, List.append_assoc]
              · have hw : wrapLink (some l)
                    (authorPart e ++ (tc ++ ",\n") ++ ("Tech. Report, " ++ n)
                      ++ (if vp = "" then "" else ", " ++ vp)
                      ++ (", " ++ spanHtml "year" y ++ ".\n"))
                    = anchorWrap l
                    (authorPart e ++ (tc ++ ",\n") ++ ("Tech. Report, " ++ n)
                      ++ (if vp = "" then "" else ", " ++ vp)
                      ++ (", " ++ spanHtml "year" y ++ ".\n")) := by
                  show (if l = "" then _ else _) = _
                  exact if_neg hl
                rw [hw]
                apply containsSubS_of_eq
                  (x := "\n<li>\n" ++ ("<a href=\"" ++ l ++ "\">"
                    ++ (authorPart e ++ (tc ++ ",\n"))))
                  (y := (if vp = "" then "" else ", " ++ vp)
                    ++ (", " ++ spanHtml "year" y ++ ".\n")
                    ++ ("</a>" ++ ("\n</li>\n" ++ "<br>\n")))
                apply string_eq_of_data
                simp [anchorWrap, String.data_append, List.append_assoc]

/-- C5 (witness): a concrete techreport without journal/booktitle/eprint
fields gets the `"Tech. Report, 7"` venue line. -/
theorem techreport_venue_amended_witness :
    formatPublisher [("ENTRYTYPE", "techreport"), ("number", "7"), ("title", "T"),
        ("year", "2001"), ("volume", "3")] = some ("Tech. Report, " ++ "7") :=
  (techreport_venue_amended
    [("ENTRYTYPE", "techreport"), ("number", "7"), ("title", "T"),
      ("year", "2001"), ("volume", "3")] "7"
    (by decide) (by decide) (by decide) (by decide) (by decide)
    (by intro m hm; exact Option.noConfusion hm)).1


theorem triple_erase (l : List Char) :
    replaceAll ['"'] [] (replaceAll ['\x7d'] [] (replaceAll ['\x7b'] [] l))
      = stripDelims l := by
  rw [replaceAll_erase, replaceAll_erase, replaceAll_erase,
    List.filter_filter, List.filter_filter]
  unfold stripDelims
  apply List.filter_congr
  intro c _
  by_cases h1 : c = '\x7b'
  · subst h1
    decide
  · by_cases h2 : c = '\x7d'
    · subst h2
      decide
    · by_cases h3 : c = '"'
      · subst h3
        decide
      · have e1 : (c == '\x7b') = false := beq_eq_false_iff_ne.mpr h1
        have e2 : (c == '\x7d') = false := beq_eq_false_iff_ne.mpr h2
        have e3 : (c == '"') = false := beq_eq_false_iff_ne.mpr h3
        rw [e1, e2, e3]
        decide

theorem dropComma_agree (w : List Char) :
    dropTrailingComma w = dropOneComma w := by
  unfold dropTrailingComma dropOneComma
  rcases w with _ | ⟨a, t⟩
  · rfl
  · by_cases hc : ((a :: t).getLast? = some ',')
    · rw [if_pos ⟨by simp, hc⟩, if_pos hc]
    · rw [if_neg (by rintro ⟨-, h⟩; exact hc h), if_neg hc]

/-- C8: on every field, `clean_entry` first runs the generic pipeline —
trim surrounding whitespace, apply the fixed replacement table, strip
every brace and double-quote character, drop exactly one trailing comma
when the value ends with one — followed only by the author or pages
rewriting when the key asks for it; on any other key the value is exactly
the generic pipeline's output.  A value ending in two commas keeps one. -/
theorem clean_value_pipeline :
    (∀ k v : String, cleanField k v = String.mk (cleanPost k (genericSpec v.data)))
    ∧ (∀ k v : String, k ∉ authorKeys → k ≠ "pages" →
        cleanField k v = String.mk (genericSpec v.data))
    ∧ cleanField "title" "x,," = "x," := by
  have hcore : ∀ s : List Char, cleanCore s = genericSpec s := by
    intro s
    unfold cleanCore genericSpec
    rw [triple_erase, dropComma_agree]
  have hmain : ∀ k v : String,
      cleanField k v = String.mk (cleanPost k (genericSpec v.data)) := by
    intro k v
    show String.mk (cleanChars k v.data) = String.mk (cleanPost k (genericSpec v.data))
    rw [cleanChars_eq, hcore]
    unfold cleanPost
    by_cases hk : k ∈ authorKeys
    · have hkp : ¬(k = "pages") := by
        rintro rfl
        exact absurd hk (by decide)
      simp [hk, hkp]
    · simp [hk]
  refine ⟨hmain, ?_, by decide⟩
  intro k v hk hkp
  rw [hmain k v]
  show String.mk (cleanPost k (genericSpec v.data)) = String.mk (genericSpec v.data)
  unfold cleanPost
  rw [if_neg hk, if_neg hkp]

/-- C8 (witness): a generic field runs exactly the generic pipeline. -/
theorem clean_value_pipeline_witness :
    cleanField "title" " a,, " = String.mk (genericSpec " a,, ".data) :=
  clean_value_pipeline.2.1 "title" " a,, " (by decide) (by decide)

theorem authorPair (s f : String) (hs : plainWord s) (hf : plainWord f) :
    fixOne (replaceAll [' '] nbspChars
      (pyStrip (s.data ++ ", ".data ++ f.data)))
      = f.data ++ [' '] ++ s.data := by
  obtain ⟨hs0, hsc⟩ := hs
  obtain ⟨hf0, hfc⟩ := hf
  obtain ⟨c0, cs, hcs⟩ := List.exists_cons_of_ne_nil hs0
  have hstrip : pyStrip (s.data ++ ", ".data ++ f.data)
      = s.data ++ ", ".data ++ f.data := by
    apply pyStrip_id
    · intro a ha
      rw [hcs] at ha
      simp only [List.cons_append, List.head?_cons] at ha
      have ha' : a = c0 := (Option.some.inj ha).symm
      subst ha'
      exact (hsc a (by rw [hcs]; exact List.mem_cons_self _ _)).1
    · intro a ha
      rw [List.getLast?_append_of_ne_nil _ hf0] at ha
      exact (hfc a (List.mem_of_getLast?_eq_some ha)).1
  rw [hstrip]
  have hks : s.data.flatMap (fun a => if a = ' ' then nbspChars else [a]) = s.data :=
    flatMap_keep (fun x hx => if_neg (fun hxe => by
      have h := (hsc x hx).1
      rw [hxe] at h
      simp [pySpace] at h))
  have hkf : f.data.flatMap (fun a => if a = ' ' then nbspChars else [a]) = f.data :=
    flatMap_keep (fun x hx => if_neg (fun hxe => by
      have h := (hfc x hx).1
      rw [hxe] at h
      simp [pySpace] at h))
  have hmid : ", ".data.flatMap (fun a => if a = ' ' then nbspChars else [a])
      = [','] ++ nbspChars := by
    decide
  have hnb : replaceAll [' '] nbspChars (s.data ++ ", ".data ++ f.data)
      = (s.data ++ [',']) ++ nbspChars ++ f.data := by
    rw [replaceAll_single, List.flatMap_append, List.flatMap_append,
      hks, hkf, hmid]
    simp [List.append_assoc]
  rw [hnb]
  have hsplit : splitOnSep nbspChars ((s.data ++ [',']) ++ nbspChars ++ f.data)
      = [s.data ++ [','], f.data] := by
    have hshape : (s.data ++ [',']) ++ nbspChars ++ f.data
        = interL nbspChars [s.data ++ [','], f.data] := rfl
    rw [hshape]
    apply splitOnSep_inter (show nbspChars.head? = some '&' from rfl)
    · simp
    · intro p hp x hx
      rcases List.mem_cons.mp hp with rfl | hp'
      · rcases List.mem_append.mp hx with hx' | hx'
        · exact (hsc x hx').2.2
        · rw [List.mem_singleton] at hx'
          subst hx'
          decide
      · rw [List.mem_singleton] at hp'
        subst hp'
        exact (hfc x hx).2.2
  unfold fixOne
  rw [hsplit]
  show (if (s.data ++ [',']).contains ',' then
      interL [' '] [f.data] ++ [' '] ++ replaceAll [','] [] (s.data ++ [','])
    else interL [' '] ((s.data ++ [',']) :: [f.data]))
    = f.data ++ [' '] ++ s.data
  rw [if_pos (List.elem_eq_true_of_mem
    (List.mem_append.mpr (Or.inr (List.mem_singleton.mpr rfl))))]
  have hera : replaceAll [','] [] (s.data ++ [',']) = s.data := by
    rw [replaceAll_erase, List.filter_append]
    rw [List.filter_eq_self.mpr (fun a ha => by
      have := (hsc a ha).2.1
      simp [this])]
    simp
  rw [hera]
  rfl

/-- C3: cleaning the author field of `"Smith, John and Doe, Jane"` yields
`"John Smith, Jane Doe"`; in general, whenever the core-cleaned author
value splits on `" and "` into names of the form `"Surname, First"` built
from plain words, the cleaner rewrites each as `"First Surname"` and joins
the names with `", "`. -/
theorem clean_entry_author_reorder :
    cleanField "author" "Smith, John and Doe, Jane" = "John Smith, Jane Doe"
    ∧ ∀ (v : String) (names : List (String × String)),
        splitOnSep andChars (cleanCore v.data)
          = names.map (fun p => p.1.data ++ ", ".data ++ p.2.data) →
        (∀ p ∈ names, plainWord p.1 ∧ plainWord p.2) →
        cleanField "author" v
          = String.mk (interL ", ".data
              (names.map (fun p => p.2.data ++ [' '] ++ p.1.data))) := by
  constructor
  · decide
  · intro v names hsplit hnames
    show String.mk (cleanChars "author" v.data) = _
    rw [cleanChars_eq]
    rw [if_neg (show ¬(("author" : String) = "pages") by decide)]
    rw [if_pos (show ("author" : String) ∈ authorKeys by decide)]
    unfold fixAuthors
    rw [hsplit]
    show String.mk
        (interL ", ".data
          ((((names.map (fun p => p.1.data ++ ", ".data ++ p.2.data)).map
            pyStrip).map (replaceAll [' '] nbspChars)).map fixOne))
      = _
    rw [List.map_map, List.map_map, List.map_map]
    exact congrArg (fun l => String.mk (interL ", ".data l))
      (List.map_congr_left (fun p hp => by
        obtain ⟨hp1, hp2⟩ := hnames p hp
        exact authorPair p.1 p.2 hp1 hp2))

/-- C3 (witness): the two-author example, as an instance of the general
reordering statement. -/
theorem clean_entry_author_reorder_witness :
    cleanField "author" "Smith, John and Doe, Jane"
      = String.mk (interL ", ".data
          ([("Smith", "John"), ("Doe", "Jane")].map
            (fun p => p.2.data ++ [' '] ++ p.1.data))) :=
  clean_entry_author_reorder.2 "Smith, John and Doe, Jane"
    [("Smith", "John"), ("Doe", "Jane")] (by decide) (by decide)
